import Mathlib

/-
Verification of the Naive Bayes spam-filter pipeline from
"Building a Spam Filter using Naive Bayes in R".

Text is modelled shallowly: a character is its Unicode code point (a Nat),
a string is a List Nat, a token is a List Nat.  The R pipeline
  str_to_lower |> str_squish |> remove punctuation |> remove special chars
  |> remove digits
is translated step by step; str_split(m, " ") keeps empty fields, exactly as
in R.  Rational numbers stand for R's floating-point arithmetic (all the
quantities involved are exact small rationals).
-/

namespace SpamFilter

/-- Convert a literal list of characters to the code-point representation. -/
def str (s : List Char) : List Nat := s.map Char.toNat

/-- Message labels.  The corpus is two-valued: spam or ham. -/
inductive Label where
  | spam
  | ham
deriving DecidableEq

/-- Whitespace for str_squish (ICU regex \s restricted to Latin-1). -/
def isWs (c : Nat) : Bool :=
  decide (c = 32 ∨ c = 9 ∨ c = 10 ∨ c = 11 ∨ c = 12 ∨ c = 13 ∨ c = 133 ∨ c = 160)

/-- POSIX [[:punct:]] over ASCII, as matched by str_replace_all. -/
def isPunct (c : Nat) : Bool :=
  decide ((33 ≤ c ∧ c ≤ 47) ∨ (58 ≤ c ∧ c ≤ 64) ∨ (91 ≤ c ∧ c ≤ 96) ∨ (123 ≤ c ∧ c ≤ 126))

/-- The fixed special characters removed by the pipeline:
U+0094, U+0092, U+0096, newline, tab. -/
def isSpecial (c : Nat) : Bool :=
  decide (c = 148 ∨ c = 146 ∨ c = 150 ∨ c = 10 ∨ c = 9)

/-- ASCII digits, as matched by [[:digit:]]. -/
def isDigit (c : Nat) : Bool :=
  decide (48 ≤ c ∧ c ≤ 57)

/-- Lowercasing of a single code point (str_to_lower on ASCII letters). -/
def lowerChar (c : Nat) : Nat :=
  if 65 ≤ c ∧ c ≤ 90 then c + 32 else c

/-- str_to_lower over a whole string. -/
def str_to_lower (s : List Nat) : List Nat := s.map lowerChar

/-- One step of splitting a string at characters satisfying p,
keeping empty fields (the behaviour of R's str_split). -/
def splitStep (p : Nat → Bool) (c : Nat) (acc : List (List Nat)) : List (List Nat) :=
  match acc with
  | [] => if p c then [[], []] else [[c]]
  | w :: ws => if p c then [] :: w :: ws else (c :: w) :: ws

/-- Split a string at characters satisfying p, keeping empty fields. -/
def splitBy (p : Nat → Bool) (s : List Nat) : List (List Nat) :=
  s.foldr (splitStep p) [[]]

/-- Join a list of words with single spaces (code point 32). -/
def joinSep : List (List Nat) → List Nat
  | [] => []
  | [w] => w
  | w :: x :: ws => w ++ 32 :: joinSep (x :: ws)

/-- The nonempty maximal whitespace-free runs of a string. -/
def wordsOf (s : List Nat) : List (List Nat) :=
  (splitBy isWs s).filter (fun w => !decide (w = []))

/-- str_squish: collapse whitespace runs to single spaces and trim the ends. -/
def str_squish (s : List Nat) : List Nat := joinSep (wordsOf s)

/-- The full cleaning pipeline applied to one sms, in the source's order:
lowercase, squish, remove punctuation, remove special characters,
remove digits. -/
def normalize (s : List Nat) : List Nat :=
  ((((str_to_lower s) |> str_squish).filter (fun c => !isPunct c)).filter
      (fun c => !isSpecial c)).filter (fun c => !isDigit c)

/-- str_split(m, " "): split at single literal spaces, keeping empty fields. -/
def tokenize (s : List Nat) : List (List Nat) :=
  splitBy (fun c => decide (c = 32)) s

/-- Remove duplicates keeping first occurrences (R's unique). -/
def dedupAux (seen : List (List Nat)) : List (List Nat) → List (List Nat)
  | [] => []
  | w :: ws => if w ∈ seen then dedupAux seen ws else w :: dedupAux (w :: seen) ws

/-- R's unique on a character vector. -/
def dedup (l : List (List Nat)) : List (List Nat) := dedupAux [] l

/-- tidy_train: the training set with every sms normalized (labels kept). -/
def tidy_train (train : List (Label × List Nat)) : List (Label × List Nat) :=
  train.map (fun r => (r.1, normalize r.2))

/-- The normalized training messages, in order. -/
def messages (train : List (Label × List Nat)) : List (List Nat) :=
  (tidy_train train).map (fun r => r.2)

/-- The vocabulary of a message collection: concatenate the token lists of
every message, then drop duplicates (the R loop c(vocabulary, words)
followed by unique). -/
def vocabOf (msgs : List (List Nat)) : List (List Nat) :=
  dedup (msgs.foldl (fun acc m => acc ++ tokenize m) [])

/-- vocabulary: the distinct tokens of the whole training set. -/
def vocabulary (train : List (Label × List Nat)) : List (List Nat) :=
  vocabOf (messages train)

/-- spam_mes: the normalized spam messages. -/
def spam_mes (train : List (Label × List Nat)) : List (List Nat) :=
  ((tidy_train train).filter (fun r => decide (r.1 = Label.spam))).map (fun r => r.2)

/-- ham_mes: the normalized ham messages. -/
def ham_mes (train : List (Label × List Nat)) : List (List Nat) :=
  ((tidy_train train).filter (fun r => decide (r.1 = Label.ham))).map (fun r => r.2)

/-- spam_voc: distinct tokens of the spam messages. -/
def spam_voc (train : List (Label × List Nat)) : List (List Nat) :=
  vocabOf (spam_mes train)

/-- ham_voc: distinct tokens of the ham messages. -/
def ham_voc (train : List (Label × List Nat)) : List (List Nat) :=
  vocabOf (ham_mes train)

/-- n_spam_voc: number of distinct tokens in the spam messages. -/
def n_spam_voc (train : List (Label × List Nat)) : Nat := (spam_voc train).length

/-- n_ham_voc: number of distinct tokens in the ham messages. -/
def n_ham_voc (train : List (Label × List Nat)) : Nat := (ham_voc train).length

/-- n_vocab: size of the full vocabulary. -/
def n_vocab (train : List (Label × List Nat)) : Nat := (vocabulary train).length

/-- p_spam: mean(tidy_train label == spam). -/
def p_spam (train : List (Label × List Nat)) : ℚ :=
  (((tidy_train train).filter (fun r => decide (r.1 = Label.spam))).length : ℚ) /
    ((tidy_train train).length : ℚ)

/-- p_ham: mean(tidy_train label == ham). -/
def p_ham (train : List (Label × List Nat)) : ℚ :=
  (((tidy_train train).filter (fun r => decide (r.1 = Label.ham))).length : ℚ) /
    ((tidy_train train).length : ℚ)

/-- count_occurrences: total number of token slots equal to w across a
class's messages (per-message occurrence counts, summed). -/
def count_occurrences (w : List Nat) (msgs : List (List Nat)) : Nat :=
  (msgs.map (fun m => (tokenize m).count w)).sum

/-- spam_counts: one row (word, spam_count) per word of spam_voc. -/
def spam_counts (train : List (Label × List Nat)) : List (List Nat × Nat) :=
  (spam_voc train).map (fun w => (w, count_occurrences w (spam_mes train)))

/-- ham_counts: one row (word, ham_count) per word of ham_voc. -/
def ham_counts (train : List (Label × List Nat)) : List (List Nat × Nat) :=
  (ham_voc train).map (fun w => (w, count_occurrences w (ham_mes train)))

/-- word_counts: full join of spam_counts and ham_counts on word, with
missing counts replaced by 0.  Rows are (word, spam_count, ham_count). -/
def word_counts (train : List (Label × List Nat)) : List (List Nat × Nat × Nat) :=
  (spam_counts train).map (fun r => (r.1, r.2, ((ham_counts train).lookup r.1).getD 0))
    ++ ((ham_counts train).filter (fun r => decide (¬ r.1 ∈ spam_voc train))).map
        (fun r => (r.1, 0, r.2))

/-- The token list of an incoming message after cleaning, as computed at the
start of classify. -/
def message_words (m : List Nat) : List (List Nat) := tokenize (normalize m)

/-- The rows of word_counts whose word occurs in the message
(filter(word %in% words)). -/
def present_rows (train : List (Label × List Nat)) (m : List Nat) :
    List (List Nat × Nat × Nat) :=
  (word_counts train).filter (fun r => decide (r.1 ∈ message_words m))

/-- setdiff(vocabulary, words): the vocabulary words absent from the message,
given probability 1 for both classes. -/
def new_words (train : List (Label × List Nat)) (m : List Nat) : List (List Nat) :=
  (vocabulary train).filter (fun w => decide (¬ w ∈ message_words m))

/-- The Laplace-smoothed conditional probability
(count + alpha) / (n_c_voc + alpha * n_voc). -/
def probOf (count : Nat) (n_c_voc n_voc : Nat) (alpha : ℚ) : ℚ :=
  ((count : ℚ) + alpha) / ((n_c_voc : ℚ) + alpha * (n_voc : ℚ))

/-- prod(prob) for the spam column: the present rows contribute their
smoothed probability, the absent vocabulary words contribute 1. -/
def wi_prob_spam (train : List (Label × List Nat)) (m : List Nat) (alpha : ℚ) : ℚ :=
  ((present_rows train m).map
      (fun r => probOf r.2.1 (n_spam_voc train) (n_vocab train) alpha)).prod *
    ((new_words train m).map (fun _ => (1 : ℚ))).prod

/-- prod(prob) for the ham column. -/
def wi_prob_ham (train : List (Label × List Nat)) (m : List Nat) (alpha : ℚ) : ℚ :=
  ((present_rows train m).map
      (fun r => probOf r.2.2 (n_ham_voc train) (n_vocab train) alpha)).prod *
    ((new_words train m).map (fun _ => (1 : ℚ))).prod

/-- p_spam_given_message: the unnormalized spam score of a message. -/
def p_spam_given_message (train : List (Label × List Nat)) (m : List Nat)
    (alpha : ℚ) : ℚ :=
  p_spam train * wi_prob_spam train m alpha

/-- p_ham_given_message: the unnormalized ham score of a message. -/
def p_ham_given_message (train : List (Label × List Nat)) (m : List Nat)
    (alpha : ℚ) : ℚ :=
  p_ham train * wi_prob_ham train m alpha

/-- classify: ifelse(p_spam_given_message >= p_ham_given_message, spam, ham). -/
def classify (train : List (Label × List Nat)) (m : List Nat) (alpha : ℚ) : Label :=
  if p_ham_given_message train m alpha ≤ p_spam_given_message train m alpha
  then Label.spam else Label.ham

/-- The sorted distinct labels occurring in a vector: the dimension names of
R's table(), with ham sorting before spam. -/
def labelsPresent (l : List Label) : List Label :=
  (if Label.ham ∈ l then [Label.ham] else []) ++
    (if Label.spam ∈ l then [Label.spam] else [])

/-- One cell of the label-by-prediction contingency table. -/
def countPair (pairs : List (Label × Label)) (a b : Label) : Nat :=
  (pairs.filter (fun q => decide (q.1 = a ∧ q.2 = b))).length

/-- The accuracy (confusion[1,1] + confusion[2,2]) / n, computed from actual
labels and predictions.  When either dimension of the contingency table has
fewer than two levels the [2,2] access is out of bounds in R; that failure is
modelled as none. -/
def accuracyOf (actual preds : List Label) : Option ℚ :=
  match labelsPresent actual, labelsPresent preds with
  | [r1, r2], [c1, c2] =>
      some (((countPair (actual.zip preds) r1 c1
               + countPair (actual.zip preds) r2 c2 : Nat) : ℚ) /
             (actual.length : ℚ))
  | _, _ => none

/-- The tuning loop: for every alpha of the grid, in order, classify the
validation messages and record (alpha, accuracy). -/
def cv_accuracy (train : List (Label × List Nat))
    (cvSet : List (Label × List Nat)) (grid : List ℚ) : List (ℚ × Option ℚ) :=
  grid.map (fun a =>
    (a, accuracyOf (cvSet.map (fun r => r.1))
          (cvSet.map (fun r => classify train r.2 a))))

/-- Helper for reasoning about splitBy on an appended word. -/
def prependWord (a : List Nat) : List (List Nat) → List (List Nat)
  | [] => [a]
  | w :: ws => (a ++ w) :: ws

/-- A character survives the three removal passes of the pipeline. -/
def keepChar (c : Nat) : Bool := !isPunct c && !isSpecial c && !isDigit c

/-- The squish-then-filter tail of the pipeline (everything after
lowercasing), used to factor the normalization function. -/
def gsq (t : List Nat) : List Nat := (str_squish t).filter keepChar

/-- The training set of end-to-end scenario 1 of the specification. -/
def train6 : List (Label × List Nat) :=
  [(Label.ham, str ['H','e','l','l','o',' ','h','o','w',' ','a','r','e',' ','y','o','u']),
   (Label.spam, str ['W','I','N',' ','m','o','n','e','y',' ','n','o','w']),
   (Label.ham, str ['S','e','e',' ','y','o','u',' ','t','o','m','o','r','r','o','w'])]

/-- A one-message training set whose single spam message repeats one word
five times, so the word count exceeds every vocabulary size. -/
def cexRepeated : List (Label × List Nat) :=
  [(Label.spam, str ['a',' ','a',' ','a',' ','a',' ','a'])]

/-- A balanced two-message training set on which an out-of-vocabulary
message produces an exact tie of the two scores. -/
def trainTie : List (Label × List Nat) :=
  [(Label.spam, str ['a']), (Label.ham, str ['b'])]

/-- A training set whose only message normalizes to the empty string. -/
def trainBang : List (Label × List Nat) :=
  [(Label.ham, str ['!','!','!'])]

/-- A two-message validation set on which both classes are predicted. -/
def cvPair : List (Label × List Nat) :=
  [(Label.ham, str ['h','e','l','l','o']),
   (Label.spam, str ['w','i','n',' ','m','o','n','e','y'])]

/-- A one-message validation set: its contingency table is 1 by 1. -/
def cvHamOnly : List (Label × List Nat) :=
  [(Label.ham, str ['h','e','l','l','o'])]

theorem splitStep_cons (p : Nat → Bool) (c : Nat) (w : List Nat)
    (ws : List (List Nat)) :
    splitStep p c (w :: ws) =
      if p c = true then [] :: w :: ws else (c :: w) :: ws := rfl

theorem splitStep_ne_nil (p : Nat → Bool) (c : Nat) (acc : List (List Nat)) :
    splitStep p c acc ≠ [] := by
  cases acc with
  | nil => by_cases h : p c = true <;> simp [splitStep, h]
  | cons w ws => by_cases h : p c = true <;> simp [splitStep_cons, h]

theorem splitBy_cons (p : Nat → Bool) (c : Nat) (s : List Nat) :
    splitBy p (c :: s) = splitStep p c (splitBy p s) := rfl

theorem splitBy_ne_nil (p : Nat → Bool) (s : List Nat) : splitBy p s ≠ [] := by
  cases s with
  | nil => simp [splitBy]
  | cons c s => rw [splitBy_cons]; exact splitStep_ne_nil p c _

theorem mem_of_mem_splitBy {p : Nat → Bool} {s w : List Nat}
    (hw : w ∈ splitBy p s) {c : Nat} (hc : c ∈ w) : p c = false ∧ c ∈ s := by
  induction s generalizing w with
  | nil =>
    simp [splitBy] at hw
    subst hw
    simp at hc
  | cons a s ih =>
    rw [splitBy_cons] at hw
    obtain ⟨w0, ws, hsp⟩ := List.exists_cons_of_ne_nil (splitBy_ne_nil p s)
    rw [hsp, splitStep_cons] at hw
    by_cases hpa : p a = true
    · rw [if_pos hpa] at hw
      rcases List.mem_cons.mp hw with rfl | hw'
      · simp at hc
      · have h := ih (show w ∈ splitBy p s by rw [hsp]; exact hw') hc
        exact ⟨h.1, List.mem_cons_of_mem a h.2⟩
    · rw [if_neg hpa] at hw
      rcases List.mem_cons.mp hw with rfl | hw'
      · rcases List.mem_cons.mp hc with rfl | hc'
        · exact ⟨by simpa using hpa, List.mem_cons_self _ _⟩
        · have h := ih (show w0 ∈ splitBy p s by rw [hsp]; exact List.mem_cons_self _ _) hc'
          exact ⟨h.1, List.mem_cons_of_mem a h.2⟩
      · have h := ih (show w ∈ splitBy p s by rw [hsp]; exact List.mem_cons_of_mem _ hw') hc
        exact ⟨h.1, List.mem_cons_of_mem a h.2⟩

theorem splitBy_append {p : Nat → Bool} {a : List Nat} (s : List Nat)
    (ha : ∀ c ∈ a, p c = false) :
    splitBy p (a ++ s) = prependWord a (splitBy p s) := by
  induction a with
  | nil =>
    obtain ⟨w, ws, hsp⟩ := List.exists_cons_of_ne_nil (splitBy_ne_nil p s)
    rw [List.nil_append, hsp]
    rfl
  | cons c a ih =>
    have hc : p c = false := ha c (List.mem_cons_self c a)
    have ha' : ∀ x ∈ a, p x = false := fun x hx => ha x (List.mem_cons_of_mem c hx)
    rw [List.cons_append, splitBy_cons, ih ha']
    obtain ⟨w, ws, hsp⟩ := List.exists_cons_of_ne_nil (splitBy_ne_nil p s)
    rw [hsp]
    simp [prependWord, splitStep, hc]

theorem splitBy_sep {p : Nat → Bool} {c : Nat} (s : List Nat) (hc : p c = true) :
    splitBy p (c :: s) = [] :: splitBy p s := by
  rw [splitBy_cons]
  obtain ⟨w, ws, hsp⟩ := List.exists_cons_of_ne_nil (splitBy_ne_nil p s)
  rw [hsp]
  simp [splitStep, hc]

theorem joinSep_two (w x : List Nat) (ws : List (List Nat)) :
    joinSep (w :: x :: ws) = w ++ 32 :: joinSep (x :: ws) := rfl

theorem splitBy_single {w : List Nat} (hch : ∀ c ∈ w, isWs c = false) :
    splitBy isWs w = [w] := by
  have h := splitBy_append ([] : List Nat) hch
  rw [List.append_nil] at h
  rw [h]
  simp [splitBy, prependWord]

theorem wordsOf_joinSep (ws : List (List Nat))
    (h : ∀ w ∈ ws, ¬ w = [] ∧ ∀ c ∈ w, isWs c = false) :
    wordsOf (joinSep ws) = ws := by
  induction ws with
  | nil => rfl
  | cons w ws ih =>
    obtain ⟨hw, hchars⟩ := h w (List.mem_cons_self w ws)
    cases ws with
    | nil =>
      show wordsOf (joinSep [w]) = [w]
      have h1 : joinSep [w] = w := rfl
      rw [h1]
      unfold wordsOf
      rw [splitBy_single hchars]
      simp [hw]
    | cons x ws' =>
      have hrest : ∀ v ∈ x :: ws', ¬ v = [] ∧ ∀ c ∈ v, isWs c = false :=
        fun v hv => h v (List.mem_cons_of_mem w hv)
      have hX := ih hrest
      unfold wordsOf at hX ⊢
      rw [joinSep_two, splitBy_append (32 :: joinSep (x :: ws')) hchars,
        splitBy_sep (joinSep (x :: ws')) (by decide : isWs 32 = true)]
      simp only [prependWord, List.append_nil, List.filter_cons]
      simp [hw, hX]

theorem mem_wordsOf {s w : List Nat} (hw : w ∈ wordsOf s) :
    ¬ w = [] ∧ (∀ c ∈ w, isWs c = false) ∧ ∀ c ∈ w, c ∈ s := by
  unfold wordsOf at hw
  have h1 := List.mem_filter.mp hw
  refine ⟨by simpa using h1.2, fun c hc => (mem_of_mem_splitBy h1.1 hc).1,
    fun c hc => (mem_of_mem_splitBy h1.1 hc).2⟩

theorem str_squish_idem (s : List Nat) : str_squish (str_squish s) = str_squish s := by
  unfold str_squish
  rw [wordsOf_joinSep (wordsOf s)
    (fun w hw => ⟨(mem_wordsOf hw).1, (mem_wordsOf hw).2.1⟩)]

theorem mem_joinSep {ws : List (List Nat)} {c : Nat} (hc : c ∈ joinSep ws) :
    c = 32 ∨ ∃ w ∈ ws, c ∈ w := by
  induction ws with
  | nil => simp [joinSep] at hc
  | cons w ws ih =>
    cases ws with
    | nil => exact Or.inr ⟨w, List.mem_cons_self w [], hc⟩
    | cons x ws' =>
      rw [joinSep_two] at hc
      rcases List.mem_append.mp hc with h | h
      · exact Or.inr ⟨w, List.mem_cons_self _ _, h⟩
      · rcases List.mem_cons.mp h with rfl | h'
        · exact Or.inl rfl
        · rcases ih h' with h32 | ⟨v, hv, hcv⟩
          · exact Or.inl h32
          · exact Or.inr ⟨v, List.mem_cons_of_mem w hv, hcv⟩

theorem mem_str_squish {s : List Nat} {c : Nat} (hc : c ∈ str_squish s) :
    c = 32 ∨ c ∈ s := by
  unfold str_squish at hc
  rcases mem_joinSep hc with h | ⟨w, hw, hcw⟩
  · exact Or.inl h
  · exact Or.inr ((mem_wordsOf hw).2.2 c hcw)

theorem triple_filter (t : List Nat) :
    ((t.filter (fun c => !isPunct c)).filter (fun c => !isSpecial c)).filter
        (fun c => !isDigit c) = t.filter keepChar := by
  rw [List.filter_filter, List.filter_filter]
  apply List.filter_congr
  intro a _
  cases hp : isPunct a <;> cases hs : isSpecial a <;> cases hd : isDigit a <;>
    simp [keepChar, hp, hs, hd]

theorem normalize_eq_gsq (s : List Nat) : normalize s = gsq (str_to_lower s) := by
  unfold normalize gsq
  exact triple_filter _

theorem mem_gsq_keep {t : List Nat} {c : Nat} (hc : c ∈ gsq t) : keepChar c = true :=
  (List.mem_filter.mp hc).2

theorem gsq_of_all_keep {t : List Nat} (h : ∀ c ∈ t, keepChar c = true) :
    gsq t = str_squish t := by
  unfold gsq
  apply List.filter_eq_self.mpr
  intro c hc
  rcases mem_str_squish hc with rfl | hin
  · decide
  · exact h c hin

theorem gsq_three (t : List Nat) : gsq (gsq (gsq t)) = gsq (gsq t) := by
  have h1 : gsq (gsq t) = str_squish (gsq t) :=
    gsq_of_all_keep (fun c hc => mem_gsq_keep hc)
  have h2 : gsq (str_squish (gsq t)) = str_squish (gsq t) := by
    unfold gsq
    rw [str_squish_idem]
    apply List.filter_eq_self.mpr
    intro c hc
    rcases mem_str_squish hc with rfl | hin
    · decide
    · exact mem_gsq_keep hin
  rw [h1, h2]

theorem lowerChar_lowerChar (c : Nat) : lowerChar (lowerChar c) = lowerChar c := by
  unfold lowerChar
  split_ifs <;> omega

theorem lowerChar_32 : lowerChar 32 = 32 := by decide

theorem keepChar_lowerChar (c : Nat) : keepChar (lowerChar c) = keepChar c := by
  rw [Bool.eq_iff_iff]
  unfold keepChar isPunct isSpecial isDigit lowerChar
  split_ifs with h
  · simp only [Bool.and_eq_true, Bool.not_eq_true', decide_eq_false_iff_not,
      decide_eq_true_eq]
    omega
  · rfl

theorem isWs_lowerChar (c : Nat) : isWs (lowerChar c) = isWs c := by
  rw [Bool.eq_iff_iff]
  unfold isWs lowerChar
  split_ifs with h
  · simp only [decide_eq_true_eq]
    omega
  · rfl

theorem splitBy_map {p : Nat → Bool} {f : Nat → Nat} (hpf : ∀ c, p (f c) = p c)
    (s : List Nat) : splitBy p (s.map f) = (splitBy p s).map (List.map f) := by
  induction s with
  | nil => rfl
  | cons c s ih =>
    rw [List.map_cons, splitBy_cons, splitBy_cons, ih]
    obtain ⟨w, ws, hsp⟩ := List.exists_cons_of_ne_nil (splitBy_ne_nil p s)
    rw [hsp]
    unfold splitStep
    rw [hpf c]
    by_cases hpc : p c = true
    · simp [hpc]
    · simp [hpc]

theorem filter_ne_nil_map {f : Nat → Nat} (ws : List (List Nat)) :
    (ws.map (List.map f)).filter (fun v => !decide (v = []))
      = (ws.filter (fun v => !decide (v = []))).map (List.map f) := by
  induction ws with
  | nil => rfl
  | cons w ws ih =>
    by_cases hw : w = []
    · simp [hw, List.filter_cons, ih]
    · simp [hw, List.filter_cons, ih, List.map_eq_nil_iff]

theorem wordsOf_map {f : Nat → Nat} (hf : ∀ c, isWs (f c) = isWs c) (s : List Nat) :
    wordsOf (s.map f) = (wordsOf s).map (List.map f) := by
  unfold wordsOf
  rw [splitBy_map hf, filter_ne_nil_map]

theorem joinSep_map {f : Nat → Nat} (hf : f 32 = 32) (ws : List (List Nat)) :
    joinSep (ws.map (List.map f)) = (joinSep ws).map f := by
  induction ws with
  | nil => rfl
  | cons w ws ih =>
    cases ws with
    | nil => rfl
    | cons x ws' =>
      simp only [List.map_cons] at ih ⊢
      rw [joinSep_two, joinSep_two, List.map_append, List.map_cons, hf, ih]

theorem lower_squish_comm (s : List Nat) :
    str_to_lower (str_squish s) = str_squish (str_to_lower s) := by
  unfold str_squish str_to_lower
  rw [wordsOf_map isWs_lowerChar, joinSep_map lowerChar_32]

theorem lower_filter_comm (t : List Nat) :
    str_to_lower (t.filter keepChar) = (str_to_lower t).filter keepChar := by
  unfold str_to_lower
  induction t with
  | nil => rfl
  | cons c t ih =>
    by_cases h : keepChar c = true
    · simp [List.filter_cons, h, keepChar_lowerChar, ih]
    · simp [List.filter_cons, h, keepChar_lowerChar, ih]

theorem lower_gsq_comm (t : List Nat) :
    str_to_lower (gsq t) = gsq (str_to_lower t) := by
  unfold gsq
  rw [lower_filter_comm, lower_squish_comm]

theorem lower_idem (s : List Nat) :
    str_to_lower (str_to_lower s) = str_to_lower s := by
  unfold str_to_lower
  induction s with
  | nil => rfl
  | cons c s ih => simp [List.map_cons, lowerChar_lowerChar, ih]

/-- Claim C4, counterexample: the pipeline is not idempotent.  Removing the
punctuation of the already-squished string a-space-dot-space-b leaves two
consecutive spaces, which a second normalization collapses. -/
theorem C4_counterexample :
    normalize (normalize (str ['a',' ','.',' ','b'])) ≠
      normalize (str ['a',' ','.',' ','b']) := by decide

/-- Claim C4 (amended): one application of normalize need not be idempotent
(see the counterexample), but two applications are: applying normalize to a
twice-normalized string is a no-op. -/
theorem C4_amended (s : List Nat) :
    normalize (normalize (normalize s)) = normalize (normalize s) := by
  simp only [normalize_eq_gsq, lower_gsq_comm, lower_idem]
  exact gsq_three _

theorem mem_dedupAux (seen l : List (List Nat)) (x : List Nat) :
    x ∈ dedupAux seen l ↔ x ∈ l ∧ ¬ x ∈ seen := by
  induction l generalizing seen with
  | nil => simp [dedupAux]
  | cons w ws ih =>
    unfold dedupAux
    by_cases hw : w ∈ seen
    · rw [if_pos hw, ih]
      by_cases hx : x = w <;> simp [hx, hw]
    · rw [if_neg hw]
      simp only [List.mem_cons, ih]
      by_cases hx : x = w <;> simp [hx, hw]

theorem mem_dedup (l : List (List Nat)) (x : List Nat) : x ∈ dedup l ↔ x ∈ l := by
  simp [dedup, mem_dedupAux]

theorem mem_foldl_tokens (msgs : List (List Nat)) (init : List (List Nat))
    (x : List Nat) :
    x ∈ msgs.foldl (fun acc m => acc ++ tokenize m) init ↔
      x ∈ init ∨ ∃ m ∈ msgs, x ∈ tokenize m := by
  induction msgs generalizing init with
  | nil => simp
  | cons m msgs ih =>
    rw [List.foldl_cons, ih]
    simp only [List.mem_append, List.mem_cons]
    constructor
    · rintro (⟨h | h⟩ | ⟨v, hv, hx⟩)
      · exact Or.inl h
      · exact Or.inr ⟨m, Or.inl rfl, h⟩
      · exact Or.inr ⟨v, Or.inr hv, hx⟩
    · rintro (h | ⟨v, rfl | hv, hx⟩)
      · exact Or.inl (Or.inl h)
      · exact Or.inl (Or.inr hx)
      · exact Or.inr ⟨v, hv, hx⟩

theorem mem_vocabOf (msgs : List (List Nat)) (x : List Nat) :
    x ∈ vocabOf msgs ↔ ∃ m ∈ msgs, x ∈ tokenize m := by
  unfold vocabOf
  rw [mem_dedup, mem_foldl_tokens]
  simp

theorem spam_mes_subset {train : List (Label × List Nat)} {m : List Nat}
    (hm : m ∈ spam_mes train) : m ∈ messages train := by
  unfold spam_mes at hm
  unfold messages
  obtain ⟨r, hr, rfl⟩ := List.mem_map.mp hm
  exact List.mem_map.mpr ⟨r, (List.mem_filter.mp hr).1, rfl⟩

theorem ham_mes_subset {train : List (Label × List Nat)} {m : List Nat}
    (hm : m ∈ ham_mes train) : m ∈ messages train := by
  unfold ham_mes at hm
  unfold messages
  obtain ⟨r, hr, rfl⟩ := List.mem_map.mp hm
  exact List.mem_map.mpr ⟨r, (List.mem_filter.mp hr).1, rfl⟩

theorem spam_voc_subset {train : List (Label × List Nat)} {w : List Nat}
    (hw : w ∈ spam_voc train) : w ∈ vocabulary train := by
  unfold spam_voc at hw
  unfold vocabulary
  rw [mem_vocabOf] at hw ⊢
  obtain ⟨m, hm, hx⟩ := hw
  exact ⟨m, spam_mes_subset hm, hx⟩

theorem ham_voc_subset {train : List (Label × List Nat)} {w : List Nat}
    (hw : w ∈ ham_voc train) : w ∈ vocabulary train := by
  unfold ham_voc at hw
  unfold vocabulary
  rw [mem_vocabOf] at hw ⊢
  obtain ⟨m, hm, hx⟩ := hw
  exact ⟨m, ham_mes_subset hm, hx⟩

theorem count_occurrences_eq_zero {w : List Nat} {msgs : List (List Nat)}
    (hw : ¬ w ∈ vocabOf msgs) : count_occurrences w msgs = 0 := by
  unfold count_occurrences
  apply List.sum_eq_zero
  intro x hx
  obtain ⟨m, hm, rfl⟩ := List.mem_map.mp hx
  apply List.count_eq_zero.mpr
  intro hmem
  exact hw ((mem_vocabOf msgs w).mpr ⟨m, hm, hmem⟩)

theorem lookup_map_count (voc : List (List Nat)) (f : List Nat → Nat) (w : List Nat) :
    (voc.map (fun v => (v, f v))).lookup w
      = if w ∈ voc then some (f w) else none := by
  induction voc with
  | nil => simp [List.lookup]
  | cons v voc ih =>
    by_cases hv : w = v
    · subst hv
      simp [List.lookup]
    · have hbeq : (w == v) = false := beq_eq_false_iff_ne.mpr hv
      simp [List.lookup, hbeq, hv, ih]

theorem getD_lookup_ham (train : List (Label × List Nat)) (w : List Nat) :
    (((ham_counts train).lookup w).getD 0) = count_occurrences w (ham_mes train) := by
  unfold ham_counts
  rw [lookup_map_count]
  by_cases hw : w ∈ ham_voc train
  · simp [hw]
  · simp only [hw, if_false, Option.getD_none]
    exact (count_occurrences_eq_zero hw).symm

/-- Claim C5: every row of the joined word-count table carries the total
number of token slots equal to its word in each class (summed per-message
occurrence counts), and a word absent from one class's vocabulary has
count 0 for that class. -/
theorem C5_word_counts (train : List (Label × List Nat)) (w : List Nat)
    (sc hc : Nat) (hmem : (w, sc, hc) ∈ word_counts train) :
    sc = count_occurrences w (spam_mes train) ∧
    hc = count_occurrences w (ham_mes train) ∧
    (¬ w ∈ spam_voc train → sc = 0) ∧
    (¬ w ∈ ham_voc train → hc = 0) := by
  unfold word_counts at hmem
  rcases List.mem_append.mp hmem with h | h
  · obtain ⟨r, hr, heq⟩ := List.mem_map.mp h
    unfold spam_counts at hr
    obtain ⟨v, hv, rfl⟩ := List.mem_map.mp hr
    rw [Prod.mk.injEq, Prod.mk.injEq] at heq
    obtain ⟨rfl, rfl, rfl⟩ := heq
    refine ⟨rfl, getD_lookup_ham train v, fun hns => absurd hv hns, fun hnh => ?_⟩
    rw [getD_lookup_ham train v]
    exact count_occurrences_eq_zero hnh
  · obtain ⟨r, hr, heq⟩ := List.mem_map.mp h
    have hfil := List.mem_filter.mp hr
    unfold ham_counts at hfil
    obtain ⟨v, hv, rfl⟩ := List.mem_map.mp hfil.1
    have hnspam : ¬ v ∈ spam_voc train := by simpa using hfil.2
    rw [Prod.mk.injEq, Prod.mk.injEq] at heq
    obtain ⟨rfl, rfl, rfl⟩ := heq
    exact ⟨(count_occurrences_eq_zero hnspam).symm, rfl, fun _ => rfl,
      fun hnh => absurd hv hnh⟩

/-- Witness for C5 at scenario-1 data: the word you has spam count 0 and
ham count 2 (it occurs in two ham messages). -/
theorem C5_witness :
    (0 : Nat) = count_occurrences (str ['y','o','u']) (spam_mes train6) ∧
    (2 : Nat) = count_occurrences (str ['y','o','u']) (ham_mes train6) ∧
    (¬ str ['y','o','u'] ∈ spam_voc train6 → (0 : Nat) = 0) ∧
    (¬ str ['y','o','u'] ∈ ham_voc train6 → (2 : Nat) = 0) :=
  C5_word_counts train6 (str ['y','o','u']) 0 2 (by decide)

theorem word_counts_mem_vocab {train : List (Label × List Nat)} {w : List Nat}
    {sc hc : Nat} (hmem : (w, sc, hc) ∈ word_counts train) :
    w ∈ vocabulary train := by
  unfold word_counts at hmem
  rcases List.mem_append.mp hmem with h | h
  · obtain ⟨r, hr, heq⟩ := List.mem_map.mp h
    unfold spam_counts at hr
    obtain ⟨v, hv, rfl⟩ := List.mem_map.mp hr
    rw [Prod.mk.injEq] at heq
    exact heq.1 ▸ spam_voc_subset hv
  · obtain ⟨r, hr, heq⟩ := List.mem_map.mp h
    have hfil := List.mem_filter.mp hr
    unfold ham_counts at hfil
    obtain ⟨v, hv, rfl⟩ := List.mem_map.mp hfil.1
    rw [Prod.mk.injEq] at heq
    exact heq.1 ▸ ham_voc_subset hv

theorem prod_map_one (l : List (List Nat)) : (l.map (fun _ => (1 : ℚ))).prod = 1 := by
  induction l with
  | nil => rfl
  | cons a l ih => simp [ih]

/-- Claim C2: vocabulary words absent from the message contribute the
literal factor 1, message tokens outside the vocabulary are never looked
up, and a message with no vocabulary overlap scores exactly the priors. -/
theorem C2_unknown_neutral (train : List (Label × List Nat)) (m : List Nat)
    (alpha : ℚ) (_hne : train ≠ []) :
    (p_spam_given_message train m alpha =
        p_spam train *
          ((present_rows train m).map
            (fun r => probOf r.2.1 (n_spam_voc train) (n_vocab train) alpha)).prod ∧
      p_ham_given_message train m alpha =
        p_ham train *
          ((present_rows train m).map
            (fun r => probOf r.2.2 (n_ham_voc train) (n_vocab train) alpha)).prod) ∧
    ((∀ w ∈ message_words m, ¬ w ∈ vocabulary train) →
      p_spam_given_message train m alpha = p_spam train ∧
      p_ham_given_message train m alpha = p_ham train) := by
  constructor
  · constructor
    · unfold p_spam_given_message wi_prob_spam
      rw [prod_map_one, mul_one]
    · unfold p_ham_given_message wi_prob_ham
      rw [prod_map_one, mul_one]
  · intro hnv
    have hpres : present_rows train m = [] := by
      unfold present_rows
      rw [List.filter_eq_nil_iff]
      intro r hr
      simp only [decide_eq_true_eq]
      intro hmem'
      exact hnv r.1 hmem' (word_counts_mem_vocab
        (show (r.1, r.2.1, r.2.2) ∈ word_counts train from hr))
    constructor
    · unfold p_spam_given_message wi_prob_spam
      rw [hpres, prod_map_one]
      simp
    · unfold p_ham_given_message wi_prob_ham
      rw [hpres, prod_map_one]
      simp

/-- Witness for C2: a message of two out-of-vocabulary tokens scores
exactly the two priors on the scenario-1 training set. -/
theorem C2_witness :
    p_spam_given_message train6 (str ['z','z','z',' ','q','q','q']) 1 = p_spam train6 ∧
    p_ham_given_message train6 (str ['z','z','z',' ','q','q','q']) 1 = p_ham train6 :=
  (C2_unknown_neutral train6 (str ['z','z','z',' ','q','q','q']) 1 (by decide)).2
    (by decide)

/-- Claim C3: classify returns spam exactly when the spam score is at least
the ham score, and an exact tie deterministically returns spam; the
decision is a total if-then-else and never raises. -/
theorem C3_decision_rule (train : List (Label × List Nat)) (m : List Nat)
    (alpha : ℚ) (_hne : train ≠ []) :
    (classify train m alpha = Label.spam ↔
      p_ham_given_message train m alpha ≤ p_spam_given_message train m alpha) ∧
    (p_spam_given_message train m alpha = p_ham_given_message train m alpha →
      classify train m alpha = Label.spam) := by
  constructor
  · unfold classify
    by_cases h : p_ham_given_message train m alpha ≤ p_spam_given_message train m alpha
    · simp [h]
    · simp [h]
  · intro h
    unfold classify
    rw [h]
    simp

unseal Rat.add Rat.mul Rat.inv in
/-- Witness for C3: on the balanced training set, an out-of-vocabulary
message produces an exact score tie, and the tie resolves to spam. -/
theorem C3_witness : classify trainTie (str ['c']) 1 = Label.spam :=
  (C3_decision_rule trainTie (str ['c']) 1 (by decide)).2 (by decide)

unseal Rat.add Rat.mul Rat.inv in
/-- Claim C1, counterexample: with one spam message repeating one word five
times, the joined table holds count 5 while both vocabulary sizes are 1, so
the smoothed probability with alpha 1 is (5+1)/(1+1) = 3, not below 1. -/
theorem C1_counterexample :
    (str ['a'], 5, 0) ∈ word_counts cexRepeated ∧
    probOf 5 (n_spam_voc cexRepeated) (n_vocab cexRepeated) 1 = 3 ∧
    ¬ probOf 5 (n_spam_voc cexRepeated) (n_vocab cexRepeated) 1 < 1 := by
  decide

/-- Claim C1 (amended): for every row of the joined table and alpha above 0,
the smoothed probability (count + alpha) / (N_c_vocab + alpha * N_vocab) is
strictly positive for both classes, even at count 0; it is strictly below 1
exactly when the numerator is below the denominator, which can fail because
the denominators use distinct-word vocabulary sizes while counts include
repetitions (see the counterexample). -/
theorem C1_amended (train : List (Label × List Nat)) (alpha : ℚ) (w : List Nat)
    (sc hc : Nat) (hmem : (w, sc, hc) ∈ word_counts train) (ha : 0 < alpha) :
    0 < probOf sc (n_spam_voc train) (n_vocab train) alpha ∧
    0 < probOf hc (n_ham_voc train) (n_vocab train) alpha ∧
    (probOf sc (n_spam_voc train) (n_vocab train) alpha < 1 ↔
      (sc : ℚ) + alpha < (n_spam_voc train : ℚ) + alpha * (n_vocab train : ℚ)) ∧
    (probOf hc (n_ham_voc train) (n_vocab train) alpha < 1 ↔
      (hc : ℚ) + alpha < (n_ham_voc train : ℚ) + alpha * (n_vocab train : ℚ)) := by
  have hv : 0 < n_vocab train := by
    unfold n_vocab
    exact List.length_pos.mpr (List.ne_nil_of_mem (word_counts_mem_vocab hmem))
  have hv' : (1 : ℚ) ≤ (n_vocab train : ℚ) := by exact_mod_cast hv
  have hmul : 0 < alpha * (n_vocab train : ℚ) :=
    mul_pos ha (lt_of_lt_of_le one_pos hv')
  have hds : 0 < (n_spam_voc train : ℚ) + alpha * (n_vocab train : ℚ) :=
    add_pos_of_nonneg_of_pos (Nat.cast_nonneg _) hmul
  have hdh : 0 < (n_ham_voc train : ℚ) + alpha * (n_vocab train : ℚ) :=
    add_pos_of_nonneg_of_pos (Nat.cast_nonneg _) hmul
  refine ⟨?_, ?_, ?_, ?_⟩
  · exact div_pos (add_pos_of_nonneg_of_pos (Nat.cast_nonneg _) ha) hds
  · exact div_pos (add_pos_of_nonneg_of_pos (Nat.cast_nonneg _) ha) hdh
  · exact div_lt_one hds
  · exact div_lt_one hdh

/-- Witness for C1 (amended) at the scenario-1 row for the word win. -/
theorem C1_witness :
    0 < probOf 1 (n_spam_voc train6) (n_vocab train6) 1 ∧
    0 < probOf 0 (n_ham_voc train6) (n_vocab train6) 1 ∧
    (probOf 1 (n_spam_voc train6) (n_vocab train6) 1 < 1 ↔
      ((1 : Nat) : ℚ) + 1 < (n_spam_voc train6 : ℚ) + 1 * (n_vocab train6 : ℚ)) ∧
    (probOf 0 (n_ham_voc train6) (n_vocab train6) 1 < 1 ↔
      ((0 : Nat) : ℚ) + 1 < (n_ham_voc train6 : ℚ) + 1 * (n_vocab train6 : ℚ)) :=
  C1_amended train6 1 (str ['w','i','n']) 1 0 (by decide) one_pos

/-- Claim C9: tokenizing keeps empty fields, so a message whose normalized
form is empty contributes the empty-string token, which enters the
vocabulary and is counted in its size. -/
theorem C9_empty_token (train : List (Label × List Nat)) (l : Label) (m : List Nat)
    (hmem : (l, m) ∈ train) (hn : normalize m = []) :
    tokenize (normalize m) = [[]] ∧ ([] : List Nat) ∈ vocabulary train ∧
      0 < n_vocab train := by
  have ht : tokenize (normalize m) = [[]] := by rw [hn]; rfl
  have hmsg : normalize m ∈ messages train := by
    unfold messages tidy_train
    rw [List.map_map]
    exact List.mem_map.mpr ⟨(l, m), hmem, rfl⟩
  have hvoc : ([] : List Nat) ∈ vocabulary train := by
    unfold vocabulary
    exact (mem_vocabOf _ _).mpr
      ⟨normalize m, hmsg, by rw [ht]; exact List.mem_cons_self _ _⟩
  refine ⟨ht, hvoc, ?_⟩
  unfold n_vocab
  exact List.length_pos.mpr (List.ne_nil_of_mem hvoc)

/-- Witness for C9: a message of three exclamation marks normalizes to the
empty string and puts the empty token into the vocabulary. -/
theorem C9_witness :
    tokenize (normalize (str ['!','!','!'])) = [[]] ∧
    ([] : List Nat) ∈ vocabulary trainBang ∧ 0 < n_vocab trainBang :=
  C9_empty_token trainBang Label.ham (str ['!','!','!']) (by decide) (by decide)

theorem filter_label_length (l : List (Label × List Nat)) :
    (l.filter (fun r => decide (r.1 = Label.spam))).length +
      (l.filter (fun r => decide (r.1 = Label.ham))).length = l.length := by
  induction l with
  | nil => rfl
  | cons r l ih =>
    obtain ⟨lbl, m⟩ := r
    cases lbl <;> simp [List.filter_cons] <;> omega

/-- Claim C7: for a nonempty training set the two priors are the spam and
ham fractions of the training messages, and they sum to exactly 1. -/
theorem C7_priors_sum (train : List (Label × List Nat)) (hne : train ≠ []) :
    p_spam train + p_ham train = 1 := by
  unfold p_spam p_ham
  have hlen : ((tidy_train train).length : ℚ) ≠ 0 := by
    have h : (tidy_train train).length = train.length := List.length_map _ _
    rw [h]
    exact Nat.cast_ne_zero.mpr (Nat.pos_iff_ne_zero.mp (List.length_pos.mpr hne))
  rw [div_add_div_same, ← Nat.cast_add, filter_label_length, div_self hlen]

/-- Witness for C7 at the scenario-1 training set (one spam, two ham). -/
theorem C7_witness : p_spam train6 + p_ham train6 = 1 :=
  C7_priors_sum train6 (by decide)

/-- Claim C6, counterexample: the vocabulary of scenario 1 has 9 distinct
words, not the 10 stated in the specification. -/
theorem C6_counterexample :
    (vocabulary train6).length = 9 ∧ ¬ (vocabulary train6).length = 10 := by
  decide

unseal Rat.add Rat.mul Rat.inv in
/-- Claim C6 (amended): the scenario-1 vocabulary is exactly the nine words
hello, how, are, you, win, money, now, see, tomorrow (you deduplicated),
and classify of win-money with alpha 1 returns spam. -/
theorem C6_amended :
    vocabulary train6 =
      [str ['h','e','l','l','o'], str ['h','o','w'], str ['a','r','e'],
       str ['y','o','u'], str ['w','i','n'], str ['m','o','n','e','y'],
       str ['n','o','w'], str ['s','e','e'], str ['t','o','m','o','r','r','o','w']] ∧
    (vocabulary train6).length = 9 ∧
    classify train6 (str ['w','i','n',' ','m','o','n','e','y']) 1 = Label.spam := by
  decide

theorem labelsPresent_pair {l : List Label} {a b : Label}
    (h : labelsPresent l = [a, b]) :
    a = Label.ham ∧ b = Label.spam ∧ Label.ham ∈ l ∧ Label.spam ∈ l := by
  unfold labelsPresent at h
  by_cases h1 : Label.ham ∈ l
  · by_cases h2 : Label.spam ∈ l
    · rw [if_pos h1, if_pos h2] at h
      simp only [List.cons_append, List.nil_append, List.cons.injEq] at h
      exact ⟨h.1.symm, h.2.1.symm, h1, h2⟩
    · rw [if_pos h1, if_neg h2] at h
      simp at h
  · by_cases h2 : Label.spam ∈ l
    · rw [if_neg h1, if_pos h2] at h
      simp at h
    · rw [if_neg h1, if_neg h2] at h
      simp at h

theorem length_filter_two_le {α : Type} (l : List α) (p q : α → Bool)
    (hpq : ∀ x, ¬ (p x = true ∧ q x = true)) :
    (l.filter p).length + (l.filter q).length ≤ l.length := by
  induction l with
  | nil => simp
  | cons a l ih =>
    cases hp : p a <;> cases hq : q a
    · simp only [List.filter_cons, hp, hq]
      simp
      omega
    · simp only [List.filter_cons, hp, hq]
      simp
      omega
    · simp only [List.filter_cons, hp, hq]
      simp
      omega
    · exact absurd ⟨hp, hq⟩ (hpq a)

theorem accuracyOf_some_bounds {actual preds : List Label} {q : ℚ}
    (h : accuracyOf actual preds = some q) : 0 ≤ q ∧ q ≤ 1 := by
  unfold accuracyOf at h
  split at h
  · rename_i r1 r2 c1 c2 heq1 heq2
    obtain ⟨rfl, rfl, hham, hspam⟩ := labelsPresent_pair heq1
    obtain ⟨rfl, rfl, hham', hspam'⟩ := labelsPresent_pair heq2
    rw [Option.some.injEq] at h
    subst h
    have hd := length_filter_two_le (actual.zip preds)
      (fun x => decide (x.1 = Label.ham ∧ x.2 = Label.ham))
      (fun x => decide (x.1 = Label.spam ∧ x.2 = Label.spam))
      (by
        intro x hx
        simp only [decide_eq_true_eq] at hx
        obtain ⟨⟨hx1, _⟩, hx2, _⟩ := hx
        rw [hx1] at hx2
        exact absurd hx2 (by decide))
    have hz : (actual.zip preds).length ≤ actual.length := by
      rw [List.length_zip]
      exact min_le_left _ _
    have hn : countPair (actual.zip preds) Label.ham Label.ham +
        countPair (actual.zip preds) Label.spam Label.spam ≤ actual.length := by
      unfold countPair
      omega
    have hpos : 0 < actual.length := List.length_pos.mpr (List.ne_nil_of_mem hham)
    constructor
    · exact div_nonneg (Nat.cast_nonneg _) (Nat.cast_nonneg _)
    · rw [div_le_one (by exact_mod_cast hpos)]
      exact_mod_cast hn
  · simp at h

theorem map_fst_pairs (g : List ℚ) (f : ℚ → Option ℚ) :
    (g.map (fun a => (a, f a))).map Prod.fst = g := by
  induction g with
  | nil => rfl
  | cons a g ih => simp [ih]

theorem accuracyOf_isSome_iff (actual preds : List Label) :
    (accuracyOf actual preds).isSome = true ↔
      Label.ham ∈ actual ∧ Label.spam ∈ actual ∧
        Label.ham ∈ preds ∧ Label.spam ∈ preds := by
  by_cases h1 : Label.ham ∈ actual <;> by_cases h2 : Label.spam ∈ actual <;>
    by_cases h3 : Label.ham ∈ preds <;> by_cases h4 : Label.spam ∈ preds <;>
    simp [accuracyOf, labelsPresent, h1, h2, h3, h4]

/-- Claim C10: the accuracy computation reads cells (1,1) and (2,2) of the
label-by-prediction table, so it yields a value exactly when both labels
occur among the actual labels and both occur among the predictions;
whenever every message receives the same predicted label it fails
(the out-of-bounds access, modelled as none) instead of returning a value. -/
theorem C10_confusion_domain (actual preds : List Label) :
    ((accuracyOf actual preds).isSome = true ↔
      Label.ham ∈ actual ∧ Label.spam ∈ actual ∧
        Label.ham ∈ preds ∧ Label.spam ∈ preds) ∧
    (∀ l : Label, (∀ p ∈ preds, p = l) → accuracyOf actual preds = none) := by
  refine ⟨accuracyOf_isSome_iff actual preds, ?_⟩
  intro l hl
  cases hopt : accuracyOf actual preds with
  | none => rfl
  | some q =>
    exfalso
    have hs : (accuracyOf actual preds).isSome = true := by rw [hopt]; rfl
    obtain ⟨_, _, h3, h4⟩ := (accuracyOf_isSome_iff actual preds).mp hs
    have e1 := hl Label.ham h3
    have e2 := hl Label.spam h4
    rw [← e1] at e2
    exact absurd e2 (by decide)

/-- Witness for C10: with actual labels ham and spam but both predictions
spam, the contingency table has one column and the accuracy is undefined. -/
theorem C10_witness :
    accuracyOf [Label.ham, Label.spam] [Label.spam, Label.spam] = none :=
  (C10_confusion_domain [Label.ham, Label.spam] [Label.spam, Label.spam]).2
    Label.spam (by decide)

/-- Claim C8 (amended): the tuning table always has one row per candidate
alpha, in input order, and every accuracy value that is produced lies in
[0, 1]; but for validation sets whose actual labels or predictions are all
one class the accuracy computation fails instead of producing a value
(see the counterexample), so the claim holds only for the defined entries. -/
theorem C8_amended (train cvSet : List (Label × List Nat)) (grid : List ℚ) :
    (cv_accuracy train cvSet grid).length = grid.length ∧
    (cv_accuracy train cvSet grid).map Prod.fst = grid ∧
    ∀ e ∈ cv_accuracy train cvSet grid, ∀ q : ℚ, e.2 = some q → 0 ≤ q ∧ q ≤ 1 := by
  refine ⟨by simp [cv_accuracy], by unfold cv_accuracy; exact map_fst_pairs grid _, ?_⟩
  intro e he q hq
  unfold cv_accuracy at he
  obtain ⟨a, _, rfl⟩ := List.mem_map.mp he
  exact accuracyOf_some_bounds hq

unseal Rat.add Rat.mul Rat.inv in
/-- Claim C8, counterexample: on a one-message ham-only validation set the
single tuning iteration has a 1-by-1 contingency table, so the loop fails
(none) rather than producing an accuracy in [0, 1]. -/
theorem C8_counterexample :
    cv_accuracy train6 cvHamOnly [1] = [(1, none)] := by decide

unseal Rat.add Rat.mul Rat.inv in
/-- Witness for C8 (amended): on a two-message validation set predicted
perfectly, the single table entry is (1, some 1) and 1 lies in [0, 1]. -/
theorem C8_witness :
    ((1 : ℚ), some (1 : ℚ)) ∈ cv_accuracy train6 cvPair [1] ∧
      (0 ≤ (1 : ℚ) ∧ (1 : ℚ) ≤ 1) :=
  ⟨by decide, (C8_amended train6 cvPair [1]).2.2 (1, some 1) (by decide) 1 rfl⟩

end SpamFilter
